import Mathlib

/-!
# Verification of the sliding-puzzle engine in `src/pic.py`

Shallow embedding of the puzzle logic of `pic.py`:

* `split_image_to_tiles` — tile partitioner (pic.py lines 113–131).  Images
  are modelled by their pixel dimensions; a produced tile is either a crop
  rectangle of the source image or a synthesized solid-fill blank.
* `inv_count`, `is_solvable` — solvability predicate (lines 145–168).
* `make_solvable_permutation` — reject-and-resample shuffle (lines 170–176).
  The stream of `random.shuffle` results is modelled as an explicit list of
  candidate permutations; the `while True` loop returns the first accepted
  draw (`none` when the finite stream is exhausted).
* `PuzzleState`, `on_create_puzzle`, `on_shuffle`, `on_reset`,
  `on_tile_click`, `is_solved` — the state machine carried by `PuzzleApp`
  (lines 335–426), with the UI rendering stripped away.
-/

namespace Puzzle

/-- A produced tile: either a crop rectangle `(left, top, right, bottom)` of
the source image (`image.crop` in PIL), or a synthesized solid-fill blank of
the given dimensions. -/
inductive Tile where
  | crop (left top right bottom : Nat)
  | blank (width height : Nat)
  deriving DecidableEq

/-- Width in pixels of a produced tile (`right - left` for a crop). -/
def Tile.width : Tile → Nat
  | .crop l _ r _ => r - l
  | .blank w _ => w

/-- Height in pixels of a produced tile (`bottom - top` for a crop). -/
def Tile.height : Tile → Nat
  | .crop _ t _ b => b - t
  | .blank _ h => h

/-- `split_image_to_tiles(image, grid_size)` (pic.py lines 113–131): crop the
`w × h` image into `grid_size²` tiles of `w/n × h/n` pixels in row-major
order (integer division, remainder pixels cropped away), then overwrite the
last tile with a solid blank of the same dimensions (`tiles[-1] = blank`). -/
def split_image_to_tiles (w h : Nat) (grid_size : Nat) : List Tile :=
  let n := grid_size
  let tile_w := w / n
  let tile_h := h / n
  let tiles := (List.range n).flatMap fun row =>
    (List.range n).map fun col =>
      Tile.crop (col * tile_w) (row * tile_h) (col * tile_w + tile_w) (row * tile_h + tile_h)
  tiles.set (tiles.length - 1) (Tile.blank tile_w tile_h)

/-- The nested inversion-counting loops of `is_solvable` (pic.py lines
154–158): for each element, count the later elements smaller than it. -/
def inv_count : List Nat → Nat
  | [] => 0
  | x :: xs => xs.countP (fun y => decide (y < x)) + inv_count xs

/-- `is_solvable(permutation, grid_size)` (pic.py lines 145–168).  `N` is the
length of the permutation (the number of tiles), the blank value is `N - 1`;
odd grids test the inversion parity, even grids add the 1-indexed
row-from-bottom of the blank. -/
def is_solvable (permutation : List Nat) (grid_size : Nat) : Bool :=
  let N := permutation.length
  let arr := permutation.filter fun p => decide (p ≠ N - 1)
  let inv_cnt := inv_count arr
  if grid_size % 2 = 1 then
    inv_cnt % 2 == 0
  else
    let blank_index := permutation.indexOf (N - 1)
    let row_from_top := blank_index / grid_size
    let row_from_bottom := grid_size - row_from_top
    (inv_cnt + row_from_bottom) % 2 == 0

/-- `make_solvable_permutation(n_tiles, grid_size)` (pic.py lines 170–176).
The successive results of `random.shuffle(perm)` are modelled by the explicit
stream `draws`; the `while True` loop returns the first draw that is solvable
and differs from the identity, and `none` if the stream runs out. -/
def make_solvable_permutation (draws : List (List Nat)) (n_tiles grid_size : Nat) :
    Option (List Nat) :=
  draws.find? fun perm =>
    is_solvable perm grid_size && decide (perm ≠ List.range n_tiles)

/-- The puzzle state carried by `PuzzleApp`: `current_perm` maps board
position to origin tile index, `blank_pos` caches the board position of the
blank tile, `n_tiles = grid_size²` is `len(self.tiles)`. -/
structure PuzzleState where
  current_perm : List Nat
  blank_pos : Nat
  grid_size : Nat
  n_tiles : Nat
  deriving DecidableEq

/-- The simultaneous assignment
`perm[blank_pos], perm[pos] = perm[pos], perm[blank_pos]` of
`on_tile_click` (pic.py line 417): both right-hand sides are read from the
original list, then written back. -/
def swap_entries (l : List Nat) (i j : Nat) : List Nat :=
  (l.set i (l.getD j 0)).set j (l.getD i 0)

/-- The adjacency test of `on_tile_click` (pic.py line 415):
`(abs(r - br) == 1 and c == bc) or (abs(c - bc) == 1 and r == br)` with
`r, c` the row/column of the clicked position and `br, bc` those of the
blank. -/
def adjacent (n pos blank_pos : Nat) : Bool :=
  let r := pos / n
  let c := pos % n
  let br := blank_pos / n
  let bc := blank_pos % n
  (((r : Int) - (br : Int)).natAbs == 1 && c == bc) ||
    (((c : Int) - (bc : Int)).natAbs == 1 && r == br)

/-- `on_tile_click(pos)` (pic.py lines 406–426) without the rendering: when
the clicked position is adjacent to the blank, swap the two entries and move
the blank there, reporting `true`; otherwise leave the state untouched and
report `false` (the "click an adjacent tile" status message). -/
def on_tile_click (s : PuzzleState) (pos : Nat) : PuzzleState × Bool :=
  if adjacent s.grid_size pos s.blank_pos then
    ({ s with
        current_perm := swap_entries s.current_perm s.blank_pos pos
        blank_pos := pos }, true)
  else
    (s, false)

/-- The solved test of `on_tile_click` (pic.py line 420):
`self.current_perm == list(range(self.n_tiles))`. -/
def is_solved (s : PuzzleState) : Bool :=
  s.current_perm == List.range s.n_tiles

/-- `on_reset` (pic.py lines 370–376): restore the identity permutation and
put the blank back at the last board position. -/
def on_reset (s : PuzzleState) : PuzzleState :=
  { s with
      current_perm := List.range s.n_tiles
      blank_pos := s.n_tiles - 1 }

/-- `on_shuffle` (pic.py lines 361–368): draw a fresh solvable permutation
and recompute the cached blank position with `perm.index(n_tiles - 1)`. -/
def on_shuffle (draws : List (List Nat)) (s : PuzzleState) : Option PuzzleState :=
  (make_solvable_permutation draws s.n_tiles s.grid_size).map fun perm =>
    { s with
        current_perm := perm
        blank_pos := perm.indexOf (s.n_tiles - 1) }

/-- `on_create_puzzle` (pic.py lines 335–359) on a `w × h` source image:
reject grid sizes outside `[2, 6]`, center-crop the image to a square and
resize it to `tile_size * n` (which fixes the partitioned dimensions
independently of `w` and `h`; the crop and resize only affect pixel content,
which this model abstracts away), partition into tiles, install a freshly
drawn solvable permutation and cache the blank position. -/
def on_create_puzzle (draws : List (List Nat)) (w h : Nat) (n : Nat) :
    Option (List Tile × PuzzleState) :=
  if n < 2 || 6 < n then
    none
  else
    let tile_size := max 64 (min 160 (512 / n))
    let full_size := tile_size * n
    let tiles := split_image_to_tiles full_size full_size n
    let n_tiles := tiles.length
    (make_solvable_permutation draws n_tiles n).map fun perm =>
      (tiles,
        { current_perm := perm
          blank_pos := perm.indexOf (n_tiles - 1)
          grid_size := n
          n_tiles := n_tiles })

/-- The state invariant of the engine: `n_tiles` is the square of the grid
size, the board is a permutation of `0 .. n_tiles - 1`, and the cached blank
position is in range and holds the blank value `n_tiles - 1`. -/
def StateInv (s : PuzzleState) : Prop :=
  s.n_tiles = s.grid_size * s.grid_size ∧
  s.current_perm.Perm (List.range s.n_tiles) ∧
  s.blank_pos < s.n_tiles ∧
  s.current_perm.getD s.blank_pos 0 = s.n_tiles - 1

/-- Inversions as the specification words them: the number of pairs
`(i, j)` with `i < j` and `value[i] > value[j]`. -/
def inversions (arr : List Nat) : Nat :=
  ((List.range arr.length).map fun i =>
    (List.range arr.length).countP fun j =>
      decide (i < j) && decide (arr.getD j 0 < arr.getD i 0)).sum

/-- The solvability predicate exactly as §4.2 of the spec words it for an
`N × N` board: remove the blank value `N²−1`, count the inversion pairs, and
branch on the parity of `N` with `row_from_bottom = N - (blank_pos div N)`. -/
def solvable_spec (board : List Nat) (N : Nat) : Bool :=
  let blank := N * N - 1
  let arr := board.filter fun p => decide (p ≠ blank)
  let ic := inversions arr
  if N % 2 = 1 then
    ic % 2 == 0
  else
    let blank_board_position := board.indexOf blank
    let row_from_bottom := N - blank_board_position / N
    (ic + row_from_bottom) % 2 == 0

/-- A concrete solvable, non-identity permutation of `0 .. N²-1`, exhibiting
that the acceptance set of the shuffle's reject-and-resample loop is
non-empty: for even `N` swap the first two tiles (one inversion, blank on the
bottom row, `1 + 1` even); for odd `N` rotate the first three tiles (two
inversions, even). -/
def sample_perm (N : Nat) : List Nat :=
  if N % 2 = 0 then
    1 :: 0 :: List.range' 2 (N * N - 2)
  else
    1 :: 2 :: 0 :: List.range' 3 (N * N - 3)

/-- Number of inversion pairs between a left block `A` and a right block `B`
(elements of `B` smaller than an element of `A`), used to split the
inversion count of a concatenation. -/
def cross (A B : List Nat) : Nat :=
  (A.map fun a => B.countP fun b => decide (b < a)).sum

lemma countP_getD_range (l : List Nat) (p : Nat → Bool) :
    (List.range l.length).countP (fun j => p (l.getD j 0)) = l.countP p := by
  induction l with
  | nil => simp
  | cons x xs ih =>
    have hcomp : ((fun j => p ((x :: xs).getD j 0)) ∘ Nat.succ)
        = fun j => p (xs.getD j 0) := by
      funext j
      simp
    rw [List.length_cons, List.range_succ_eq_map, List.countP_cons, List.countP_map, hcomp, ih,
      List.countP_cons]
    simp

lemma inversions_cons (x : Nat) (xs : List Nat) :
    inversions (x :: xs) = xs.countP (fun y => decide (y < x)) + inversions xs := by
  unfold inversions
  rw [List.length_cons, List.range_succ_eq_map, List.map_cons, List.map_map, List.sum_cons]
  have hhead :
      (0 :: (List.range xs.length).map Nat.succ).countP
          (fun j => decide (0 < j) && decide ((x :: xs).getD j 0 < (x :: xs).getD 0 0))
        = xs.countP fun y => decide (y < x) := by
    rw [List.countP_cons, List.countP_map]
    have hc : ∀ j ∈ List.range xs.length,
        ((fun j => decide (0 < j) && decide ((x :: xs).getD j 0 < (x :: xs).getD 0 0))
            ∘ Nat.succ) j = true
          ↔ (fun j => (fun y => decide (y < x)) (xs.getD j 0)) j = true := by
      intro j _
      simp [Nat.succ_pos]
    rw [List.countP_congr hc]
    simpa using countP_getD_range xs fun y => decide (y < x)
  have htail :
      ((List.range xs.length).map
          ((fun i => (0 :: (List.range xs.length).map Nat.succ).countP fun j =>
            decide (i < j) && decide ((x :: xs).getD j 0 < (x :: xs).getD i 0))
              ∘ Nat.succ))
        = (List.range xs.length).map fun i =>
            (List.range xs.length).countP fun j =>
              decide (i < j) && decide (xs.getD j 0 < xs.getD i 0) := by
    refine List.map_congr_left fun i _ => ?_
    simp only [Function.comp_apply, List.countP_cons, List.countP_map]
    have hc : ∀ j ∈ List.range xs.length,
        ((fun j => decide (Nat.succ i < j)
              && decide ((x :: xs).getD j 0 < (x :: xs).getD (Nat.succ i) 0))
            ∘ Nat.succ) j = true
          ↔ (fun j => decide (i < j) && decide (xs.getD j 0 < xs.getD i 0)) j = true := by
      intro j _
      simp [Nat.succ_lt_succ_iff]
    rw [List.countP_congr hc]
    simp
  rw [hhead, htail]

lemma inv_count_eq_inversions (l : List Nat) : inv_count l = inversions l := by
  induction l with
  | nil => rfl
  | cons x xs ih => rw [inv_count, inversions_cons, ih]

/-- **C1.** For every board that is a permutation of `0 .. N²-1` and grid
size `N`, `is_solvable` computes the inversion count (number of pairs out of
order) of the sequence obtained by removing the blank value `N²-1`, and
returns: when `N` is odd, true iff that count is even; when `N` is even,
true iff the count plus `row_from_bottom = N - (blank_board_position / N)`
is even. -/
theorem is_solvable_eq_spec (board : List Nat) (N : Nat)
    (hperm : board.Perm (List.range (N * N))) :
    is_solvable board N = solvable_spec board N := by
  have hlen : board.length = N * N := by simpa using hperm.length_eq
  simp only [is_solvable, solvable_spec, hlen, inv_count_eq_inversions]

/-- Witness for `is_solvable_eq_spec` at `board = [1,0,2,3]`, `N = 2`. -/
theorem is_solvable_eq_spec_witness :
    ([1, 0, 2, 3] : List Nat).Perm (List.range (2 * 2))
      ∧ is_solvable [1, 0, 2, 3] 2 = solvable_spec [1, 0, 2, 3] 2 :=
  ⟨by decide, is_solvable_eq_spec [1, 0, 2, 3] 2 (by decide)⟩

/-- **C2.** Every permutation returned by the shuffle operation
(`make_solvable_permutation`) satisfies `is_solvable` and is not the identity
permutation, for every `n_tiles = N²` with `2 ≤ N ≤ 6`. -/
theorem shuffle_results_solvable_not_identity (N : Nat) (draws : List (List Nat))
    (perm : List Nat) (h2 : 2 ≤ N) (h6 : N ≤ 6)
    (h : make_solvable_permutation draws (N * N) N = some perm) :
    is_solvable perm N = true ∧ perm ≠ List.range (N * N) := by
  have hp := List.find?_some h
  simp only [Bool.and_eq_true, decide_eq_true_eq] at hp
  exact hp

/-- Witness for `shuffle_results_solvable_not_identity` at `N = 2` with the
single draw `[1,0,2,3]`. -/
theorem shuffle_results_solvable_not_identity_witness :
    (2 ≤ 2 ∧ 2 ≤ 6 ∧ make_solvable_permutation [[1, 0, 2, 3]] (2 * 2) 2 = some [1, 0, 2, 3])
      ∧ (is_solvable [1, 0, 2, 3] 2 = true ∧ [1, 0, 2, 3] ≠ List.range (2 * 2)) :=
  ⟨⟨by decide, by decide, by decide⟩,
    shuffle_results_solvable_not_identity 2 [[1, 0, 2, 3]] [1, 0, 2, 3]
      (by decide) (by decide) (by decide)⟩

lemma adjacent_ne {n p b : Nat} (h : adjacent n p b = true) : p ≠ b := by
  intro he
  subst he
  simp [adjacent] at h

lemma getD_swap_fst (l : List Nat) {i j : Nat} (hi : i < l.length) :
    (swap_entries l i j).getD i 0 = l.getD j 0 ∨ i = j := by
  by_cases hij : i = j
  · exact Or.inr hij
  · refine Or.inl ?_
    simp only [swap_entries, List.getD_eq_getElem?_getD]
    rw [List.getElem?_set_ne (Ne.symm hij), List.getElem?_set_self hi]
    rfl

lemma getD_swap_snd (l : List Nat) {i j : Nat} (hj : j < l.length) :
    (swap_entries l i j).getD j 0 = l.getD i 0 := by
  simp only [swap_entries, List.getD_eq_getElem?_getD]
  rw [List.getElem?_set_self (by simpa using hj)]
  rfl

lemma getD_swap_other (l : List Nat) {i j : Nat} (q : Nat) (hqi : q ≠ i) (hqj : q ≠ j) :
    (swap_entries l i j).getD q 0 = l.getD q 0 := by
  simp only [swap_entries, List.getD_eq_getElem?_getD,
    List.getElem?_set_ne (Ne.symm hqj), List.getElem?_set_ne (Ne.symm hqi)]

/-- **C3.** For every state and board position `pos` orthogonally adjacent to
the blank position, `on_tile_click` reports success, swaps exactly the two
board entries at `pos` and at the blank position, leaves every other entry
unchanged, and sets the cached blank position to `pos`. -/
theorem legal_move_swaps_exactly (s : PuzzleState) (pos : Nat)
    (hb : s.blank_pos < s.current_perm.length)
    (hp : pos < s.current_perm.length)
    (hadj : adjacent s.grid_size pos s.blank_pos = true) :
    (on_tile_click s pos).2 = true
    ∧ (on_tile_click s pos).1.blank_pos = pos
    ∧ (on_tile_click s pos).1.current_perm.getD pos 0 = s.current_perm.getD s.blank_pos 0
    ∧ (on_tile_click s pos).1.current_perm.getD s.blank_pos 0 = s.current_perm.getD pos 0
    ∧ ∀ q, q ≠ pos → q ≠ s.blank_pos →
        (on_tile_click s pos).1.current_perm.getD q 0 = s.current_perm.getD q 0 := by
  have hne : pos ≠ s.blank_pos := adjacent_ne hadj
  simp only [on_tile_click, hadj, if_true]
  refine ⟨by simp, by simp, ?_, ?_, ?_⟩
  · exact getD_swap_snd s.current_perm hp
  · rcases getD_swap_fst s.current_perm (j := pos) hb with h | h
    · exact h
    · exact absurd h.symm hne
  · intro q hq1 hq2
    exact getD_swap_other s.current_perm q hq2 hq1

/-- Witness for `legal_move_swaps_exactly` on the solved 2×2 board with the
click at position 2 (left neighbour of the blank at position 3); the frame
condition is instantiated at the untouched position 0. -/
theorem legal_move_swaps_exactly_witness :
    (on_tile_click (PuzzleState.mk [0, 1, 2, 3] 3 2 4) 2).2 = true
    ∧ (on_tile_click (PuzzleState.mk [0, 1, 2, 3] 3 2 4) 2).1.blank_pos = 2
    ∧ (on_tile_click (PuzzleState.mk [0, 1, 2, 3] 3 2 4) 2).1.current_perm.getD 2 0
        = ([0, 1, 2, 3] : List Nat).getD 3 0
    ∧ (on_tile_click (PuzzleState.mk [0, 1, 2, 3] 3 2 4) 2).1.current_perm.getD 3 0
        = ([0, 1, 2, 3] : List Nat).getD 2 0
    ∧ (on_tile_click (PuzzleState.mk [0, 1, 2, 3] 3 2 4) 2).1.current_perm.getD 0 0
        = ([0, 1, 2, 3] : List Nat).getD 0 0 := by
  have h := legal_move_swaps_exactly (PuzzleState.mk [0, 1, 2, 3] 3 2 4) 2
    (by decide) (by decide) (by decide)
  exact ⟨h.1, h.2.1, h.2.2.1, h.2.2.2.1, h.2.2.2.2 0 (by decide) (by decide)⟩

/-- **C4.** For every state and board position `pos` that is not orthogonally
adjacent to the blank position, `on_tile_click` leaves the whole state
unchanged and reports the illegal move as the normal result value `false`
(in the embedding `on_tile_click` is a total function: the code path raises
no exception, it only sets a status message). -/
theorem illegal_move_noop (s : PuzzleState) (pos : Nat)
    (hadj : adjacent s.grid_size pos s.blank_pos = false) :
    on_tile_click s pos = (s, false) := by
  simp [on_tile_click, hadj]

/-- Witness for `illegal_move_noop`: clicking position 0, diagonal to the
blank at position 3 on the 2×2 board, changes nothing. -/
theorem illegal_move_noop_witness :
    on_tile_click (PuzzleState.mk [0, 1, 2, 3] 3 2 4) 0
      = (PuzzleState.mk [0, 1, 2, 3] 3 2 4, false) :=
  illegal_move_noop (PuzzleState.mk [0, 1, 2, 3] 3 2 4) 0 (by decide)

lemma range_flatMap_map {α : Type} (m n : Nat) (hn : 0 < n) (f : Nat → Nat → α) :
    ((List.range m).flatMap fun row => (List.range n).map (f row))
      = (List.range (m * n)).map fun i => f (i / n) (i % n) := by
  induction m with
  | zero => simp
  | succ m ih =>
    have hsingle : ([m] : List Nat).flatMap (fun row => (List.range n).map (f row))
        = (List.range n).map (f m) := by simp
    rw [List.range_succ, List.flatMap_append, ih, hsingle, Nat.succ_mul, List.range_add,
      List.map_append, List.map_map]
    congr 1
    refine List.map_congr_left fun j hj => ?_
    have hjn : j < n := List.mem_range.mp hj
    have h1 : (m * n + j) / n = m := by
      rw [Nat.mul_comm m n, Nat.mul_add_div hn, Nat.div_eq_of_lt hjn]
      rfl
    have h2 : (m * n + j) % n = j := by
      rw [Nat.mul_comm m n, Nat.mul_add_mod, Nat.mod_eq_of_lt hjn]
    simp [h1, h2]

lemma split_image_to_tiles_eq (w h n : Nat) (hn : 0 < n) :
    split_image_to_tiles w h n
      = ((List.range (n * n)).map fun i =>
          Tile.crop ((i % n) * (w / n)) ((i / n) * (h / n))
            ((i % n) * (w / n) + w / n) ((i / n) * (h / n) + h / n)).set
          (n * n - 1) (Tile.blank (w / n) (h / n)) := by
  simp only [split_image_to_tiles]
  rw [range_flatMap_map n n hn]
  simp

/-- **C7.** For every square `S × S` input image and grid size `N` with
`2 ≤ N ≤ 6`, the partitioner produces exactly `N²` tiles in row-major order
(tile `i` is the crop whose top-left corner is column `i % N`, row `i / N`),
each of size `⌊S/N⌋ × ⌊S/N⌋` with remainder pixels cropped away, and the
tile at origin index `N² - 1` is a synthesized flat-fill blank of the same
dimensions, never a crop of the source image. -/
theorem split_tiles_row_major (S N : Nat) (h2 : 2 ≤ N) (h6 : N ≤ 6) :
    (split_image_to_tiles S S N).length = N * N
    ∧ (∀ i, i < N * N - 1 →
        (split_image_to_tiles S S N).getD i (Tile.blank 0 0)
          = Tile.crop ((i % N) * (S / N)) ((i / N) * (S / N))
              ((i % N) * (S / N) + S / N) ((i / N) * (S / N) + S / N))
    ∧ (split_image_to_tiles S S N).getD (N * N - 1) (Tile.blank 0 0)
        = Tile.blank (S / N) (S / N)
    ∧ (∀ i, i < N * N →
        ((split_image_to_tiles S S N).getD i (Tile.blank 0 0)).width = S / N
        ∧ ((split_image_to_tiles S S N).getD i (Tile.blank 0 0)).height = S / N) := by
  have hn : 0 < N := by omega
  rw [split_image_to_tiles_eq S S N hn]
  have hlen :
      (((List.range (N * N)).map fun i =>
          Tile.crop ((i % N) * (S / N)) ((i / N) * (S / N))
            ((i % N) * (S / N) + S / N) ((i / N) * (S / N) + S / N)).set
          (N * N - 1) (Tile.blank (S / N) (S / N))).length = N * N := by
    simp
  have hmid : ∀ i, i < N * N - 1 →
      (((List.range (N * N)).map fun i =>
          Tile.crop ((i % N) * (S / N)) ((i / N) * (S / N))
            ((i % N) * (S / N) + S / N) ((i / N) * (S / N) + S / N)).set
          (N * N - 1) (Tile.blank (S / N) (S / N))).getD i (Tile.blank 0 0)
        = Tile.crop ((i % N) * (S / N)) ((i / N) * (S / N))
            ((i % N) * (S / N) + S / N) ((i / N) * (S / N) + S / N) := by
    intro i hi
    have hi2 : i < N * N := by omega
    rw [List.getD_eq_getElem?_getD, List.getElem?_set_ne (show N * N - 1 ≠ i by omega),
      List.getElem?_map, List.getElem?_range hi2]
    rfl
  have hlast :
      (((List.range (N * N)).map fun i =>
          Tile.crop ((i % N) * (S / N)) ((i / N) * (S / N))
            ((i % N) * (S / N) + S / N) ((i / N) * (S / N) + S / N)).set
          (N * N - 1) (Tile.blank (S / N) (S / N))).getD (N * N - 1) (Tile.blank 0 0)
        = Tile.blank (S / N) (S / N) := by
    rw [List.getD_eq_getElem?_getD, List.getElem?_set_self (by simp; omega)]
    rfl
  refine ⟨hlen, hmid, hlast, fun i hi => ?_⟩
  by_cases hlt : i < N * N - 1
  · rw [hmid i hlt]
    simp [Tile.width, Tile.height]
  · have hieq : i = N * N - 1 := by omega
    rw [hieq, hlast]
    exact ⟨rfl, rfl⟩

/-- Witness for `split_tiles_row_major` at `S = 7`, `N = 2` (remainder pixel
cropped away: tiles are 3×3), row-major entry instantiated at `i = 1`. -/
theorem split_tiles_row_major_witness :
    (split_image_to_tiles 7 7 2).length = 2 * 2
    ∧ (split_image_to_tiles 7 7 2).getD 1 (Tile.blank 0 0)
        = Tile.crop ((1 % 2) * (7 / 2)) ((1 / 2) * (7 / 2))
            ((1 % 2) * (7 / 2) + 7 / 2) ((1 / 2) * (7 / 2) + 7 / 2)
    ∧ (split_image_to_tiles 7 7 2).getD (2 * 2 - 1) (Tile.blank 0 0)
        = Tile.blank (7 / 2) (7 / 2)
    ∧ (((split_image_to_tiles 7 7 2).getD 1 (Tile.blank 0 0)).width = 7 / 2
        ∧ ((split_image_to_tiles 7 7 2).getD 1 (Tile.blank 0 0)).height = 7 / 2) := by
  have h := split_tiles_row_major 7 2 (by decide) (by decide)
  exact ⟨h.1, h.2.1 1 (by decide), h.2.2.1, h.2.2.2 1 (by decide)⟩

lemma length_split_image_to_tiles (w h n : Nat) (hn : 0 < n) :
    (split_image_to_tiles w h n).length = n * n := by
  rw [split_image_to_tiles_eq w h n hn]
  simp

lemma on_create_puzzle_some {draws : List (List Nat)} {w h n : Nat}
    {tiles : List Tile} {s : PuzzleState}
    (hc : on_create_puzzle draws w h n = some (tiles, s)) :
    2 ≤ n ∧ n ≤ 6
    ∧ tiles = split_image_to_tiles (max 64 (min 160 (512 / n)) * n)
        (max 64 (min 160 (512 / n)) * n) n
    ∧ make_solvable_permutation draws tiles.length n = some s.current_perm
    ∧ s = PuzzleState.mk s.current_perm (s.current_perm.indexOf (tiles.length - 1))
        n tiles.length := by
  simp only [on_create_puzzle] at hc
  by_cases hg : (decide (n < 2) || decide (6 < n)) = true
  · rw [if_pos hg] at hc
    cases hc
  · rw [if_neg hg] at hc
    rw [Option.map_eq_some'] at hc
    obtain ⟨perm, hfind, heq⟩ := hc
    injection heq with ht hs
    subst ht
    subst hs
    simp only [Bool.or_eq_true, decide_eq_true_eq, not_or] at hg
    exact ⟨by omega, by omega, rfl, hfind, rfl⟩

lemma make_solvable_permutation_some {draws : List (List Nat)} {n_tiles grid_size : Nat}
    {perm : List Nat}
    (h : make_solvable_permutation draws n_tiles grid_size = some perm) :
    perm ∈ draws ∧ is_solvable perm grid_size = true ∧ perm ≠ List.range n_tiles := by
  have hmem := List.mem_of_find?_eq_some h
  have hp := List.find?_some h
  simp only [Bool.and_eq_true, decide_eq_true_eq] at hp
  exact ⟨hmem, hp.1, hp.2⟩

lemma indexOf_blank_consistent {perm : List Nat} {k : Nat}
    (hperm : perm.Perm (List.range k)) (hk : 0 < k) :
    perm.indexOf (k - 1) < k ∧ perm.getD (perm.indexOf (k - 1)) 0 = k - 1 := by
  have hmem : (k - 1) ∈ perm := hperm.mem_iff.mpr (List.mem_range.mpr (by omega))
  have hlt : perm.indexOf (k - 1) < perm.length := List.indexOf_lt_length.mpr hmem
  have hlen : perm.length = k := by simpa using hperm.length_eq
  refine ⟨hlen ▸ hlt, ?_⟩
  rw [List.getD_eq_getElem?_getD, List.getElem?_indexOf hmem]
  rfl

/-- **C6 counterexample.** Creating a puzzle (`on_create_puzzle`, the only
initialize operation) does not produce the identity permutation: with grid
size 2 and the draw stream `[[1,0,2,3]]` the created state is not solved,
because the create handler immediately installs a shuffled permutation that
is by construction never the identity. -/
theorem create_not_identity_counterexample :
    (on_create_puzzle [[1, 0, 2, 3]] 512 512 2).map (fun ts => is_solved ts.2)
      = some false := by
  decide

/-- **C6 amended.** The reset operation (`on_reset`) produces the identity
permutation with `blank_pos = N² - 1`, so `is_solved` is true immediately
after reset; `on_create_puzzle` (initialize) instead installs a shuffled
solvable permutation which is never the identity, so `is_solved` is false
immediately after create. -/
theorem reset_identity_create_shuffled :
    (∀ s : PuzzleState,
      (on_reset s).current_perm = List.range s.n_tiles
      ∧ (on_reset s).blank_pos = s.n_tiles - 1
      ∧ is_solved (on_reset s) = true)
    ∧ (∀ (draws : List (List Nat)) (w h n : Nat) (tiles : List Tile) (s : PuzzleState),
        on_create_puzzle draws w h n = some (tiles, s) → is_solved s = false) := by
  constructor
  · intro s
    refine ⟨rfl, rfl, ?_⟩
    simp [is_solved, on_reset]
  · intro draws w h n tiles s hc
    obtain ⟨-, -, -, hfind, hs⟩ := on_create_puzzle_some hc
    obtain ⟨-, -, hne⟩ := make_solvable_permutation_some hfind
    rw [is_solved, beq_eq_false_iff_ne]
    intro hid
    rw [hs] at hid
    exact hne hid

/-- Witness for `reset_identity_create_shuffled`: reset of a scrambled 2×2
state is solved; the state created from draw stream `[[1,0,2,3]]` is not. -/
theorem reset_identity_create_shuffled_witness :
    is_solved (on_reset (PuzzleState.mk [1, 0, 2, 3] 0 2 4)) = true
    ∧ is_solved (PuzzleState.mk [1, 0, 2, 3] 3 2 4) = false :=
  ⟨(reset_identity_create_shuffled.1 (PuzzleState.mk [1, 0, 2, 3] 0 2 4)).2.2,
    reset_identity_create_shuffled.2 [[1, 0, 2, 3]] 512 512 2
      (split_image_to_tiles 320 320 2) (PuzzleState.mk [1, 0, 2, 3] 3 2 4) (by decide)⟩

/-- **C8 counterexample.** No `InvalidImage` failure exists anywhere in the
code: a non-square 512×256 image is accepted by `on_create_puzzle` (which
center-crops instead of failing), and `split_image_to_tiles` happily
partitions a non-square 4×2 image into `N²` (rectangular 2×1) tiles instead
of failing before generating tiles. -/
theorem partitioner_accepts_non_square_counterexample :
    (on_create_puzzle [[1, 0, 2, 3]] 512 256 2).isSome = true
    ∧ (split_image_to_tiles 4 2 2).length = 2 * 2 := by
  decide

/-- **C8 amended.** The create operation fails (returns no puzzle) when the
grid size `N` is outside `[2,6]`, before any tiles are generated; a
non-square input image is *not* rejected: `on_create_puzzle` center-crops it
to a square, and the partitioner itself performs no validation at all —
`split_image_to_tiles` produces `N²` tiles for every input dimensions. -/
theorem create_checks_grid_size_partitioner_total :
    (∀ (draws : List (List Nat)) (w h n : Nat),
      n < 2 ∨ 6 < n → on_create_puzzle draws w h n = none)
    ∧ (∀ (draws : List (List Nat)) (w h n : Nat) (tiles : List Tile) (s : PuzzleState),
        on_create_puzzle draws w h n = some (tiles, s) → tiles.length = n * n)
    ∧ (∀ w h n : Nat, 1 ≤ n → (split_image_to_tiles w h n).length = n * n) := by
  refine ⟨fun draws w h n hn => ?_, fun draws w h n tiles s hc => ?_, fun w h n hn => ?_⟩
  · have hg : (decide (n < 2) || decide (6 < n)) = true := by
      simp only [Bool.or_eq_true, decide_eq_true_eq]
      omega
    simp only [on_create_puzzle, if_pos hg]
  · obtain ⟨h2, -, ht, -, -⟩ := on_create_puzzle_some hc
    rw [ht, length_split_image_to_tiles _ _ n (by omega)]
  · exact length_split_image_to_tiles w h n (by omega)

/-- Witness for `create_checks_grid_size_partitioner_total`: grid size 7 is
rejected with no tiles; the accepted 2×2 example yields 4 tiles; the
partitioner yields 4 tiles even from a non-square 4×2 image. -/
theorem create_checks_grid_size_partitioner_total_witness :
    on_create_puzzle [] 512 512 7 = none
    ∧ (split_image_to_tiles 320 320 2).length = 2 * 2
    ∧ (split_image_to_tiles 4 2 2).length = 2 * 2 :=
  ⟨create_checks_grid_size_partitioner_total.1 [] 512 512 7 (by omega),
    create_checks_grid_size_partitioner_total.2.1 [[1, 0, 2, 3]] 512 512 2
      (split_image_to_tiles 320 320 2) (PuzzleState.mk [1, 0, 2, 3] 3 2 4) (by decide),
    create_checks_grid_size_partitioner_total.2.2 4 2 2 (by omega)⟩

lemma getD_append_cons (A : List Nat) (x : Nat) (R : List Nat) :
    (A ++ x :: R).getD A.length 0 = x := by
  rw [List.getD_eq_getElem?_getD, List.getElem?_append_right (Nat.le_refl _)]
  simp

lemma set_append_cons (A : List Nat) (x v : Nat) (R : List Nat) :
    (A ++ x :: R).set A.length v = A ++ v :: R := by
  rw [List.set_append_right _ _ (Nat.le_refl _)]
  simp

lemma swap_decomp (A M B : List Nat) (x y : Nat) :
    swap_entries (A ++ x :: (M ++ y :: B)) A.length (A.length + 1 + M.length)
      = A ++ y :: (M ++ x :: B) := by
  have hlen1 : (A ++ x :: M).length = A.length + 1 + M.length := by
    simp
    omega
  have hlen2 : (A ++ y :: M).length = A.length + 1 + M.length := by
    simp
    omega
  have hassoc1 : A ++ x :: (M ++ y :: B) = (A ++ x :: M) ++ y :: B := by
    simp
  have hassoc2 : A ++ y :: (M ++ y :: B) = (A ++ y :: M) ++ y :: B := by
    simp
  unfold swap_entries
  rw [show A.length + 1 + M.length = (A ++ x :: M).length from hlen1.symm, hassoc1,
    getD_append_cons (A ++ x :: M) y B]
  rw [← hassoc1, getD_append_cons A x (M ++ y :: B), set_append_cons A x y (M ++ y :: B)]
  rw [hassoc2, hlen1, ← hlen2, set_append_cons (A ++ y :: M) y x B]
  simp

lemma exists_three_split (L : List Nat) (i j : Nat) (hij : i < j) (hj : j < L.length) :
    ∃ A x M y B, L = A ++ x :: (M ++ y :: B) ∧ A.length = i ∧ M.length = j - i - 1 := by
  have hi : i < L.length := Nat.lt_trans hij hj
  have hdropi : L.drop i = L.get ⟨i, hi⟩ :: L.drop (i + 1) := List.drop_eq_getElem_cons hi
  have hdropj : L.drop j = L.get ⟨j, hj⟩ :: L.drop (j + 1) := List.drop_eq_getElem_cons hj
  have hTlen : j - i - 1 ≤ (L.drop (i + 1)).length := by
    rw [List.length_drop]
    omega
  have hT : L.drop (i + 1)
      = (L.drop (i + 1)).take (j - i - 1) ++ (L.get ⟨j, hj⟩ :: L.drop (j + 1)) := by
    conv_lhs => rw [← List.take_append_drop (j - i - 1) (L.drop (i + 1))]
    rw [List.drop_drop, show i + 1 + (j - i - 1) = j by omega, hdropj]
  refine ⟨L.take i, L.get ⟨i, hi⟩, (L.drop (i + 1)).take (j - i - 1), L.get ⟨j, hj⟩,
    L.drop (j + 1), ?_, ?_, ?_⟩
  · conv_lhs => rw [← List.take_append_drop i L, hdropi, hT]
  · rw [List.length_take]
    omega
  · rw [List.length_take]
    rw [List.length_drop]
    omega

lemma swap_entries_comm (l : List Nat) {i j : Nat} (hij : i ≠ j) :
    swap_entries l i j = swap_entries l j i := by
  unfold swap_entries
  rw [List.set_comm _ _ _ hij]

lemma swap_entries_perm_of_lt (l : List Nat) {i j : Nat} (hij : i < j) (hj : j < l.length) :
    (swap_entries l i j).Perm l := by
  obtain ⟨A, x, M, y, B, hL, hA, hM⟩ := exists_three_split l i j hij hj
  have hswap : swap_entries l i j = A ++ y :: (M ++ x :: B) := by
    rw [hL, show i = A.length from hA.symm, show j = A.length + 1 + M.length by omega]
    exact swap_decomp A M B x y
  rw [hswap, hL]
  refine List.Perm.append_left A ?_
  have h1 : (M ++ x :: B).Perm (x :: (M ++ B)) := List.perm_middle
  have h2 : (M ++ y :: B).Perm (y :: (M ++ B)) := List.perm_middle
  exact ((List.Perm.cons y h1).trans (List.Perm.swap x y (M ++ B))).trans
    (List.Perm.cons x h2).symm

lemma swap_entries_perm (l : List Nat) {i j : Nat} (hi : i < l.length) (hj : j < l.length)
    (hij : i ≠ j) : (swap_entries l i j).Perm l := by
  rcases Nat.lt_or_ge i j with h | h
  · exact swap_entries_perm_of_lt l h hj
  · have hji : j < i := by omega
    rw [swap_entries_comm l hij]
    exact swap_entries_perm_of_lt l hji hi

/-- **C5.** Every engine operation preserves the state invariant: the board
is a permutation of `0 .. N²-1` and the cached `blank_pos` is in range and
consistent with the board (`board[blank_pos] = N²-1`).  `on_create_puzzle`
and `on_shuffle` establish it from any stream of permutation draws,
`on_reset` and `on_tile_click` preserve it. -/
theorem engine_ops_preserve_invariant :
    (∀ (draws : List (List Nat)) (w h n : Nat) (tiles : List Tile) (s : PuzzleState),
      (∀ d ∈ draws, d.Perm (List.range (n * n))) →
      on_create_puzzle draws w h n = some (tiles, s) → StateInv s)
    ∧ (∀ (draws : List (List Nat)) (s t : PuzzleState),
        StateInv s → (∀ d ∈ draws, d.Perm (List.range s.n_tiles)) →
        on_shuffle draws s = some t → StateInv t)
    ∧ (∀ s : PuzzleState, StateInv s → StateInv (on_reset s))
    ∧ (∀ (s : PuzzleState) (pos : Nat), StateInv s → pos < s.n_tiles →
        StateInv (on_tile_click s pos).1) := by
  refine ⟨?_, ?_, ?_, ?_⟩
  · intro draws w h n tiles s hdraws hc
    obtain ⟨h2, h6, ht, hfind, hs⟩ := on_create_puzzle_some hc
    obtain ⟨hmem, -, -⟩ := make_solvable_permutation_some hfind
    have hlen : tiles.length = n * n := by
      rw [ht, length_split_image_to_tiles _ _ n (by omega)]
    have hperm : s.current_perm.Perm (List.range (n * n)) := hdraws _ hmem
    have hk : 0 < n * n := by positivity
    obtain ⟨hidx, hgetD⟩ := indexOf_blank_consistent hperm hk
    rw [hs]
    refine ⟨by simp [hlen], by simpa [hlen] using hperm, by simpa [hlen] using hidx, ?_⟩
    simpa [hlen] using hgetD
  · intro draws s t hinv hdraws hsh
    rw [on_shuffle, Option.map_eq_some'] at hsh
    obtain ⟨perm, hfind, heq⟩ := hsh
    obtain ⟨hmem, -, -⟩ := make_solvable_permutation_some hfind
    have hperm : perm.Perm (List.range s.n_tiles) := hdraws _ hmem
    have hb := hinv.2.2.1
    have hk : 0 < s.n_tiles := by omega
    obtain ⟨hidx, hgetD⟩ := indexOf_blank_consistent hperm hk
    rw [← heq]
    exact ⟨hinv.1, hperm, hidx, hgetD⟩
  · intro s hinv
    have hb := hinv.2.2.1
    have hk : 0 < s.n_tiles := by omega
    refine ⟨hinv.1, List.Perm.refl _, ?_, ?_⟩
    · simp only [on_reset]
      omega
    · simp only [on_reset]
      rw [List.getD_eq_getElem?_getD, List.getElem?_range (by omega)]
      rfl
  · intro s pos hinv hpos
    obtain ⟨hsq, hperm, hblt, hbval⟩ := hinv
    have hlen : s.current_perm.length = s.n_tiles := by simpa using hperm.length_eq
    by_cases hadj : adjacent s.grid_size pos s.blank_pos = true
    · have hne : pos ≠ s.blank_pos := adjacent_ne hadj
      simp only [on_tile_click, hadj, if_true]
      refine ⟨hsq, ?_, hpos, ?_⟩
      · exact (swap_entries_perm s.current_perm (by omega) (by omega)
          (Ne.symm hne)).trans hperm
      · rw [getD_swap_snd s.current_perm (by omega)]
        exact hbval
    · rw [Bool.not_eq_true] at hadj
      simp only [on_tile_click, hadj]
      exact ⟨hsq, hperm, hblt, hbval⟩

/-- Witness for `engine_ops_preserve_invariant`: the invariant holds for a
created 2×2 state, a shuffled state, a reset state and a post-move state. -/
theorem engine_ops_preserve_invariant_witness :
    StateInv (PuzzleState.mk [1, 0, 2, 3] 3 2 4)
    ∧ StateInv (PuzzleState.mk [0, 2, 1, 3] 3 2 4)
    ∧ StateInv (on_reset (PuzzleState.mk [1, 0, 2, 3] 3 2 4))
    ∧ StateInv (on_tile_click (PuzzleState.mk [1, 0, 2, 3] 3 2 4) 1).1 :=
  ⟨engine_ops_preserve_invariant.1 [[1, 0, 2, 3]] 512 512 2
      (split_image_to_tiles 320 320 2) (PuzzleState.mk [1, 0, 2, 3] 3 2 4)
      (by decide) (by decide),
    engine_ops_preserve_invariant.2.1 [[0, 2, 1, 3]]
      (PuzzleState.mk [1, 0, 2, 3] 3 2 4) (PuzzleState.mk [0, 2, 1, 3] 3 2 4)
      ⟨by decide, by decide, by decide, by decide⟩ (by decide) (by decide),
    engine_ops_preserve_invariant.2.2.1 (PuzzleState.mk [1, 0, 2, 3] 3 2 4)
      ⟨by decide, by decide, by decide, by decide⟩,
    engine_ops_preserve_invariant.2.2.2 (PuzzleState.mk [1, 0, 2, 3] 3 2 4) 1
      ⟨by decide, by decide, by decide, by decide⟩ (by decide)⟩

/-- **C9.** Every engine operation of the embedding is a total (hence
terminating) function — `on_create_puzzle`, `on_shuffle`, `on_reset`,
`on_tile_click` and `is_solved` are structurally recursive Lean definitions —
and the reject-and-resample loop of `make_solvable_permutation` succeeds as
soon as the random stream produces an accepted draw; for every
`n_tiles = N²` with `2 ≤ N ≤ 6` accepted draws exist (`sample_perm N`), so
with uniform random shuffling the loop terminates with probability 1. -/
theorem shuffle_loop_terminates :
    (∀ (draws : List (List Nat)) (n_tiles grid_size : Nat) (p : List Nat),
      p ∈ draws →
      (is_solvable p grid_size && decide (p ≠ List.range n_tiles)) = true →
      (make_solvable_permutation draws n_tiles grid_size).isSome = true)
    ∧ (∀ N, 2 ≤ N → N ≤ 6 →
        (sample_perm N).Perm (List.range (N * N))
        ∧ make_solvable_permutation [sample_perm N] (N * N) N
            = some (sample_perm N)) := by
  constructor
  · intro draws n_tiles grid_size p hmem hacc
    rw [make_solvable_permutation]
    exact List.find?_isSome.mpr ⟨p, hmem, hacc⟩
  · intro N h2 h6
    interval_cases N
    · exact ⟨by decide, by decide⟩
    · exact ⟨by decide, by decide⟩
    · exact ⟨by decide, by decide⟩
    · exact ⟨by decide, by decide⟩
    · exact ⟨by decide, by decide⟩

/-- Witness for `shuffle_loop_terminates`: the loop over the stream
`[[1,0,2,3]]` for the 2×2 grid succeeds, and for `N = 4` the concrete
`sample_perm 4` is an accepted draw. -/
theorem shuffle_loop_terminates_witness :
    (make_solvable_permutation [[1, 0, 2, 3]] 4 2).isSome = true
    ∧ ((sample_perm 4).Perm (List.range (4 * 4))
        ∧ make_solvable_permutation [sample_perm 4] (4 * 4) 4 = some (sample_perm 4)) :=
  ⟨shuffle_loop_terminates.1 [[1, 0, 2, 3]] 4 2 [1, 0, 2, 3] (by decide) (by decide),
    shuffle_loop_terminates.2 4 (by decide) (by decide)⟩

lemma inv_count_cons (y : Nat) (B : List Nat) :
    inv_count (y :: B) = B.countP (fun b => decide (b < y)) + inv_count B := rfl

lemma inv_count_append (A B : List Nat) :
    inv_count (A ++ B) = inv_count A + inv_count B + cross A B := by
  induction A with
  | nil => simp [inv_count, cross]
  | cons x A ih =>
    simp only [List.cons_append, inv_count_cons, List.countP_append, ih, cross,
      List.map_cons, List.sum_cons] at ih ⊢
    omega

lemma cross_append_right (A B C : List Nat) :
    cross A (B ++ C) = cross A B + cross A C := by
  induction A with
  | nil => simp [cross]
  | cons x A ih =>
    simp only [cross, List.map_cons, List.sum_cons, List.countP_append] at ih ⊢
    omega

lemma cross_cons_right (A : List Nat) (y : Nat) (B : List Nat) :
    cross A (y :: B) = cross A [y] + cross A B := by
  have h : y :: B = [y] ++ B := rfl
  rw [h, cross_append_right]

lemma cross_singleton_right (A : List Nat) (y : Nat) :
    cross A [y] = A.countP fun a => decide (y < a) := by
  induction A with
  | nil => rfl
  | cons x A ih =>
    simp only [cross, List.map_cons, List.sum_cons] at ih ⊢
    rw [List.countP_cons, ih, List.countP_cons]
    simp only [List.countP_nil, Nat.zero_add]
    omega

lemma countP_lt_add_countP_gt {M : List Nat} {y : Nat} (h : ∀ m ∈ M, m ≠ y) :
    M.countP (fun m => decide (m < y)) + M.countP (fun m => decide (y < m))
      = M.length := by
  induction M with
  | nil => rfl
  | cons m M ih =>
    have hm : m ≠ y := h m (List.mem_cons_self m M)
    have hIH := ih fun x hx => h x (List.mem_cons_of_mem m hx)
    rw [List.countP_cons, List.countP_cons, List.length_cons]
    by_cases hlt : m < y <;> by_cases hgt : y < m <;> simp [hlt, hgt] <;> omega

lemma inv_count_move_parity (A M B : List Nat) (y : Nat) (hy : ∀ m ∈ M, m ≠ y) :
    (inv_count (A ++ (M ++ y :: B)) + inv_count (A ++ y :: (M ++ B))) % 2
      = M.length % 2 := by
  have e1 := inv_count_append A (M ++ y :: B)
  have e2 := inv_count_append M (y :: B)
  have e3 := inv_count_append A (y :: (M ++ B))
  have e4 : inv_count (y :: (M ++ B))
      = (M ++ B).countP (fun b => decide (b < y)) + inv_count (M ++ B) := rfl
  have e5 := inv_count_append M B
  have e6 : cross A (M ++ y :: B) = cross A M + (cross A [y] + cross A B) := by
    rw [cross_append_right, cross_cons_right]
  have e7 : cross A (y :: (M ++ B)) = cross A [y] + (cross A M + cross A B) := by
    rw [cross_cons_right, cross_append_right]
  have e8 : cross M (y :: B) = cross M [y] + cross M B := cross_cons_right M y B
  have e9 : (M ++ B).countP (fun b => decide (b < y))
      = M.countP (fun b => decide (b < y)) + B.countP (fun b => decide (b < y)) := by
    simp
  have e10 : cross M [y] = M.countP fun m => decide (y < m) := cross_singleton_right M y
  have e11 := countP_lt_add_countP_gt hy
  have e12 : inv_count (y :: B)
      = B.countP (fun b => decide (b < y)) + inv_count B := rfl
  omega

lemma adjacent_spec {n p b : Nat} (h : adjacent n p b = true) :
    (p = b + n ∧ p / n = b / n + 1)
    ∨ (b = p + n ∧ b / n = p / n + 1)
    ∨ ((p = b + 1 ∨ b = p + 1) ∧ p / n = b / n) := by
  simp only [adjacent, Bool.or_eq_true, Bool.and_eq_true, beq_iff_eq] at h
  have hp := Nat.div_add_mod p n
  have hb := Nat.div_add_mod b n
  rcases h with ⟨h1, h2⟩ | ⟨h1, h2⟩
  · rw [Int.natAbs_eq_iff] at h1
    have hrow : p / n = b / n + 1 ∨ b / n = p / n + 1 := by
      rcases h1 with h1 | h1
      · left
        omega
      · right
        omega
    rcases hrow with hr | hr
    · refine Or.inl ⟨?_, hr⟩
      calc p = n * (p / n) + p % n := hp.symm
        _ = n * (b / n + 1) + b % n := by rw [hr, h2]
        _ = n * (b / n) + b % n + n := by ring
        _ = b + n := by rw [hb]
    · refine Or.inr (Or.inl ⟨?_, hr⟩)
      calc b = n * (b / n) + b % n := hb.symm
        _ = n * (p / n + 1) + p % n := by rw [hr, h2]
        _ = n * (p / n) + p % n + n := by ring
        _ = p + n := by rw [hp]
  · rw [Int.natAbs_eq_iff] at h1
    have hcol : p % n = b % n + 1 ∨ b % n = p % n + 1 := by
      rcases h1 with h1 | h1
      · left
        omega
      · right
        omega
    refine Or.inr (Or.inr ⟨?_, h2⟩)
    rcases hcol with hc | hc
    · left
      calc p = n * (p / n) + p % n := hp.symm
        _ = n * (b / n) + (b % n + 1) := by rw [h2, hc]
        _ = n * (b / n) + b % n + 1 := by ring
        _ = b + 1 := by rw [hb]
    · right
      calc b = n * (b / n) + b % n := hb.symm
        _ = n * (p / n) + (p % n + 1) := by rw [← h2, hc]
        _ = n * (p / n) + p % n + 1 := by ring
        _ = p + 1 := by rw [hp]

lemma filter_ne_of_not_mem {l : List Nat} {β : Nat} (h : β ∉ l) :
    l.filter (fun v => decide (v ≠ β)) = l := by
  refine List.filter_eq_self.mpr fun a ha => ?_
  simp only [decide_eq_true_eq]
  exact fun he => h (he ▸ ha)

lemma nodup_decomp_facts {A M B : List Nat} {x y : Nat}
    (hnd : (A ++ x :: (M ++ y :: B)).Nodup) :
    x ∉ A ∧ x ∉ M ∧ x ∉ B ∧ y ∉ A ∧ y ∉ M ∧ y ∉ B ∧ x ≠ y := by
  have hdisj := List.disjoint_of_nodup_append hnd
  have hxA : x ∉ A := fun hmem => hdisj hmem (by simp)
  have hyA : y ∉ A := fun hmem => hdisj hmem (by simp)
  have hnd2 : (x :: (M ++ y :: B)).Nodup := (List.nodup_append.mp hnd).2.1
  rw [List.nodup_cons] at hnd2
  obtain ⟨hxR, hnd3⟩ := hnd2
  simp only [List.mem_append, List.mem_cons, not_or] at hxR
  have hdisj3 := List.disjoint_of_nodup_append hnd3
  have hyM : y ∉ M := fun hmem => hdisj3 hmem (by simp)
  have hnd4 : (y :: B).Nodup := (List.nodup_append.mp hnd3).2.1
  rw [List.nodup_cons] at hnd4
  exact ⟨hxA, hxR.1, hxR.2.2, hyA, hyM, hnd4.1, hxR.2.1⟩

lemma solvable_swap_horiz (N : Nat) (A B : List Nat) (y : Nat)
    (hlen : (A ++ (N * N - 1) :: y :: B).length = N * N)
    (hy : y ≠ N * N - 1) (hA : (N * N - 1) ∉ A) (hB : (N * N - 1) ∉ B)
    (hrow : (A.length + 1) / N = A.length / N) :
    is_solvable (A ++ y :: (N * N - 1) :: B) N
      = is_solvable (A ++ (N * N - 1) :: y :: B) N := by
  have hlen2 : (A ++ y :: (N * N - 1) :: B).length = N * N := by
    simp only [List.length_append, List.length_cons] at hlen ⊢
    omega
  have harr1 : (A ++ y :: (N * N - 1) :: B).filter (fun v => decide (v ≠ N * N - 1))
      = A ++ y :: B := by
    rw [List.filter_append, filter_ne_of_not_mem hA,
      List.filter_cons_of_pos (by simpa using hy), List.filter_cons_of_neg (by simp),
      filter_ne_of_not_mem hB]
  have harr2 : (A ++ (N * N - 1) :: y :: B).filter (fun v => decide (v ≠ N * N - 1))
      = A ++ y :: B := by
    rw [List.filter_append, filter_ne_of_not_mem hA, List.filter_cons_of_neg (by simp),
      List.filter_cons_of_pos (by simpa using hy), filter_ne_of_not_mem hB]
  have hidx1 : (A ++ y :: (N * N - 1) :: B).indexOf (N * N - 1) = A.length + 1 := by
    rw [List.indexOf_append_of_not_mem hA, List.indexOf_cons_ne _ hy,
      List.indexOf_cons_self]
  have hidx2 : (A ++ (N * N - 1) :: y :: B).indexOf (N * N - 1) = A.length := by
    rw [List.indexOf_append_of_not_mem hA, List.indexOf_cons_self]
    omega
  simp only [is_solvable, hlen, hlen2]
  rw [harr1, harr2]
  by_cases hodd : N % 2 = 1
  · rw [if_pos hodd, if_pos hodd]
  · rw [if_neg hodd, if_neg hodd, hidx1, hidx2, hrow]

lemma solvable_swap_vert (N : Nat) (A M B : List Nat) (y : Nat)
    (hlen : (A ++ (N * N - 1) :: (M ++ y :: B)).length = N * N)
    (hMlen : M.length = N - 1) (hN : 1 ≤ N)
    (hy : y ≠ N * N - 1) (hA : (N * N - 1) ∉ A) (hMb : (N * N - 1) ∉ M)
    (hB : (N * N - 1) ∉ B) (hyM : ∀ m ∈ M, m ≠ y) :
    is_solvable (A ++ y :: (M ++ (N * N - 1) :: B)) N
      = is_solvable (A ++ (N * N - 1) :: (M ++ y :: B)) N := by
  obtain ⟨m, rfl⟩ : ∃ m, N = m + 1 := ⟨N - 1, by omega⟩
  set β := (m + 1) * (m + 1) - 1 with hβ
  have hlen2 : (A ++ y :: (M ++ β :: B)).length = (m + 1) * (m + 1) := by
    simp only [List.length_append, List.length_cons] at hlen ⊢
    omega
  have harr1 : (A ++ y :: (M ++ β :: B)).filter (fun v => decide (v ≠ β))
      = A ++ y :: (M ++ B) := by
    rw [List.filter_append, filter_ne_of_not_mem hA,
      List.filter_cons_of_pos (by simpa using hy), List.filter_append,
      filter_ne_of_not_mem hMb, List.filter_cons_of_neg (by simp),
      filter_ne_of_not_mem hB]
  have harr2 : (A ++ β :: (M ++ y :: B)).filter (fun v => decide (v ≠ β))
      = A ++ (M ++ y :: B) := by
    rw [List.filter_append, filter_ne_of_not_mem hA, List.filter_cons_of_neg (by simp),
      List.filter_append, filter_ne_of_not_mem hMb,
      List.filter_cons_of_pos (by simpa using hy), filter_ne_of_not_mem hB]
  have hidx1 : (A ++ y :: (M ++ β :: B)).indexOf β = A.length + 1 + M.length := by
    rw [List.indexOf_append_of_not_mem hA, List.indexOf_cons_ne _ hy,
      List.indexOf_append_of_not_mem hMb, List.indexOf_cons_self]
    omega
  have hidx2 : (A ++ β :: (M ++ y :: B)).indexOf β = A.length := by
    rw [List.indexOf_append_of_not_mem hA, List.indexOf_cons_self]
    omega
  have hpar := inv_count_move_parity A M B y hyM
  simp only [is_solvable, hlen, hlen2]
  rw [harr1, harr2]
  by_cases hodd : (m + 1) % 2 = 1
  · rw [if_pos hodd, if_pos hodd]
    have hpareq : inv_count (A ++ y :: (M ++ B)) % 2
        = inv_count (A ++ (M ++ y :: B)) % 2 := by
      omega
    rw [hpareq]
  · rw [if_neg hodd, if_neg hodd, hidx1, hidx2]
    have hstep : A.length + 1 + M.length = A.length + (m + 1) := by omega
    rw [hstep, Nat.add_div_right _ (by omega)]
    have hAbound : A.length + (m + 1) < (m + 1) * (m + 1) := by
      simp only [List.length_append, List.length_cons] at hlen
      omega
    have hq : A.length / (m + 1) < m + 1 := by
      rw [Nat.div_lt_iff_lt_mul (by omega)]
      omega
    have hpareq : (inv_count (A ++ y :: (M ++ B)) + (m + 1 - (A.length / (m + 1) + 1))) % 2
        = (inv_count (A ++ (M ++ y :: B)) + (m + 1 - A.length / (m + 1))) % 2 := by
      omega
    rw [hpareq]

lemma swap_preserves_solvable {L : List Nat} {N b p : Nat}
    (hperm : L.Perm (List.range (N * N)))
    (hb : b < N * N) (hp : p < N * N)
    (hbval : L.getD b 0 = N * N - 1)
    (hadj : adjacent N p b = true) :
    is_solvable (swap_entries L b p) N = is_solvable L N := by
  have hlenL : L.length = N * N := by simpa using hperm.length_eq
  have hnd : L.Nodup := hperm.nodup_iff.mpr (List.nodup_range (N * N))
  have hnepb : p ≠ b := adjacent_ne hadj
  have hN : 1 ≤ N := by
    rcases Nat.eq_zero_or_pos N with h0 | h1
    · subst h0
      simp at hb
    · exact h1
  rcases adjacent_spec hadj with ⟨hpb, hr⟩ | ⟨hbp, hr⟩ | ⟨hor, hr⟩
  · -- clicked tile one row below the blank: p = b + N, blank first in the split
    have hij : b < p := by omega
    obtain ⟨A, x, M, y, B, hL, hA, hM⟩ := exists_three_split L b p hij (by omega)
    have hMlen : M.length = N - 1 := by omega
    have hx : x = N * N - 1 := by
      have h := hbval
      rw [hL, show b = A.length from hA.symm, getD_append_cons A x (M ++ y :: B)] at h
      exact h
    subst hx
    have hnd' := hnd
    rw [hL] at hnd'
    obtain ⟨hxA, hxM, hxB, hyA, hyM, hyB, hxy⟩ := nodup_decomp_facts hnd'
    have hswap : swap_entries L b p = A ++ y :: (M ++ (N * N - 1) :: B) := by
      rw [hL, show b = A.length from hA.symm, show p = A.length + 1 + M.length by omega]
      exact swap_decomp A M B (N * N - 1) y
    have hlen1 : (A ++ (N * N - 1) :: (M ++ y :: B)).length = N * N := by
      rw [← hL]
      exact hlenL
    rw [hswap, hL]
    exact solvable_swap_vert N A M B y hlen1 hMlen hN (Ne.symm hxy) hxA hxM hxB
      fun m hm he => hyM (he ▸ hm)
  · -- clicked tile one row above the blank: b = p + N, blank second in the split
    have hij : p < b := by omega
    obtain ⟨A, x, M, y, B, hL, hA, hM⟩ := exists_three_split L p b hij (by omega)
    have hMlen : M.length = N - 1 := by omega
    have hy : y = N * N - 1 := by
      have h := hbval
      rw [hL, show A ++ x :: (M ++ y :: B) = (A ++ x :: M) ++ y :: B by simp,
        show b = (A ++ x :: M).length by simp; omega, getD_append_cons] at h
      exact h
    subst hy
    have hnd' := hnd
    rw [hL] at hnd'
    obtain ⟨hxA, hxM, hxB, hyA, hyM, hyB, hxy⟩ := nodup_decomp_facts hnd'
    have hswap : swap_entries L b p = A ++ (N * N - 1) :: (M ++ x :: B) := by
      rw [swap_entries_comm L (Ne.symm hnepb), hL,
        show p = A.length from hA.symm, show b = A.length + 1 + M.length by omega]
      exact swap_decomp A M B x (N * N - 1)
    have hlen1 : (A ++ (N * N - 1) :: (M ++ x :: B)).length = N * N := by
      rw [hL] at hlenL
      simp only [List.length_append, List.length_cons] at hlenL ⊢
      omega
    rw [hswap, hL]
    exact (solvable_swap_vert N A M B x hlen1 hMlen hN hxy hyA hyM hyB
      fun m hm he => hxM (he ▸ hm)).symm
  · rcases hor with hpb | hbp
    · -- clicked tile right of the blank: p = b + 1, blank first in the split
      have hij : b < p := by omega
      obtain ⟨A, x, M, y, B, hL, hA, hM⟩ := exists_three_split L b p hij (by omega)
      have hM0 : M = [] := List.length_eq_zero.mp (by omega)
      subst hM0
      simp only [List.nil_append] at hL
      have hx : x = N * N - 1 := by
        have h := hbval
        rw [hL, show b = A.length from hA.symm, getD_append_cons A x (y :: B)] at h
        exact h
      subst hx
      have hnd' := hnd
      rw [hL] at hnd'
      obtain ⟨hxA, -, hxB, hyA, -, hyB, hxy⟩ :=
        nodup_decomp_facts (x := N * N - 1) (M := []) (by simpa using hnd')
      have hswap : swap_entries L b p = A ++ y :: (N * N - 1) :: B := by
        rw [hL, show b = A.length from hA.symm, show p = A.length + 1 + ([] : List Nat).length by simp; omega]
        have h := swap_decomp A [] B (N * N - 1) y
        simpa using h
      have hlen1 : (A ++ (N * N - 1) :: y :: B).length = N * N := by
        rw [← hL]
        exact hlenL
      have hrow : (A.length + 1) / N = A.length / N := by
        rw [hA]
        rw [show b + 1 = p by omega]
        exact hr
      rw [hswap, hL]
      exact solvable_swap_horiz N A B y hlen1 (Ne.symm hxy) hxA hxB hrow
    · -- clicked tile left of the blank: b = p + 1, blank second in the split
      have hij : p < b := by omega
      obtain ⟨A, x, M, y, B, hL, hA, hM⟩ := exists_three_split L p b hij (by omega)
      have hM0 : M = [] := List.length_eq_zero.mp (by omega)
      subst hM0
      simp only [List.nil_append] at hL
      have hy : y = N * N - 1 := by
        have h := hbval
        rw [hL, show A ++ x :: y :: B = (A ++ [x]) ++ y :: B by simp,
          show b = (A ++ [x]).length by simp; omega, getD_append_cons] at h
        exact h
      subst hy
      have hnd' := hnd
      rw [hL] at hnd'
      obtain ⟨hxA, -, hxB, hyA, -, hyB, hxy⟩ :=
        nodup_decomp_facts (x := x) (M := []) (by simpa using hnd')
      have hswap : swap_entries L b p = A ++ (N * N - 1) :: x :: B := by
        rw [swap_entries_comm L (Ne.symm hnepb), hL,
          show p = A.length from hA.symm, show b = A.length + 1 + ([] : List Nat).length by simp; omega]
        have h := swap_decomp A [] B x (N * N - 1)
        simpa using h
      have hlen1 : (A ++ (N * N - 1) :: x :: B).length = N * N := by
        rw [hL] at hlenL
        simp only [List.length_append, List.length_cons] at hlenL ⊢
        omega
      have hrow : (A.length + 1) / N = A.length / N := by
        rw [hA]
        rw [show p + 1 = b by omega]
        exact hr.symm
      rw [hswap, hL]
      exact (solvable_swap_horiz N A B x hlen1 hxy hyA hyB hrow).symm

/-- **C10.** For every board that is a permutation of `0 .. N²-1` (with the
cached blank position consistent) and every legal move — a clicked position
orthogonally adjacent to the blank — the value of `is_solvable` on the board
is unchanged by applying the move: legal slides preserve the solvability
parity, so a solvable board can never become unsolvable through play. -/
theorem legal_move_preserves_solvability (s : PuzzleState) (pos : Nat)
    (hinv : StateInv s) (hpos : pos < s.n_tiles)
    (hadj : adjacent s.grid_size pos s.blank_pos = true) :
    is_solvable (on_tile_click s pos).1.current_perm s.grid_size
      = is_solvable s.current_perm s.grid_size := by
  obtain ⟨hsq, hperm, hblt, hbval⟩ := hinv
  rw [hsq] at hperm hblt hbval hpos
  simp only [on_tile_click, hadj, if_true]
  exact swap_preserves_solvable hperm hblt hpos hbval hadj

/-- Witness for `legal_move_preserves_solvability`: sliding tile 1 up into
the blank on the solvable 2×2 board `[1,0,2,3]` keeps `is_solvable` true. -/
theorem legal_move_preserves_solvability_witness :
    is_solvable (on_tile_click (PuzzleState.mk [1, 0, 2, 3] 3 2 4) 1).1.current_perm 2
      = is_solvable [1, 0, 2, 3] 2 :=
  legal_move_preserves_solvability (PuzzleState.mk [1, 0, 2, 3] 3 2 4) 1
    ⟨by decide, by decide, by decide, by decide⟩ (by decide) (by decide)

end Puzzle
